import Mathlib

/-!
Shallow embedding of the batch-GCD pipeline of this repository: the product
tree builder with its on-disk level store (`utils.cpp`), the two remainder
variants, and the final gcd stage of the entry point.  Moduli are modelled as
natural numbers (the data model takes them to be non-negative
arbitrary-precision integers), levels as lists, and the on-disk tree as a map
from level and index to an optional stored value together with the global
`filesPerFloor` vector.
-/

set_option autoImplicit false

namespace BatchGCD

/-- One multiplication pass of `product_tree` (utils.cpp lines 57-65): the
`for` loop multiplies consecutive pairs `current_level[i] * current_level[i+1]`
for even `i`, and when the level has odd size the final unpaired element is
appended unchanged (the orphan carry). -/
def pairProd : List Nat → List Nat
  | a :: b :: rest => (a * b) :: pairProd rest
  | l => l

theorem pairProd_nil : pairProd [] = [] := rfl

theorem pairProd_singleton (x : Nat) : pairProd [x] = [x] := rfl

theorem pairProd_cons_cons (a b : Nat) (rest : List Nat) :
    pairProd (a :: b :: rest) = (a * b) :: pairProd rest := rfl

theorem pairProd_length : ∀ l : List Nat, (pairProd l).length = (l.length + 1) / 2
  | [] => rfl
  | [x] => by rw [pairProd_singleton]; simp
  | _ :: _ :: rest => by
    rw [pairProd_cons_cons, List.length_cons, pairProd_length rest]
    simp only [List.length_cons]
    omega

theorem pairProd_prod : ∀ l : List Nat, (pairProd l).prod = l.prod
  | [] => rfl
  | [_] => rfl
  | a :: b :: rest => by
    rw [pairProd_cons_cons, List.prod_cons, pairProd_prod rest]
    simp [List.prod_cons, Nat.mul_assoc]

theorem pairProd_length_lt (l : List Nat) (h : 1 < l.length) :
    (pairProd l).length < l.length := by
  rw [pairProd_length]; omega

/-- Element formula for one multiplication pass: entry `i` of the next level is
the product of entries `2i` and `2i+1` of the current level, except that when
`2i+1` is past the end the unpaired entry `2i` is carried unchanged. -/
theorem pairProd_getD : ∀ (l : List Nat) (i : Nat), i < (pairProd l).length →
    (pairProd l).getD i 0 =
      if 2 * i + 1 < l.length then l.getD (2 * i) 0 * l.getD (2 * i + 1) 0
      else l.getD (2 * i) 0
  | [], i, h => by simp [pairProd_nil] at h
  | [x], i, h => by
    rw [pairProd_singleton] at h
    simp only [List.length_singleton] at h
    interval_cases i
    simp [pairProd_singleton]
  | a :: b :: rest, 0, _ => by
    rw [pairProd_cons_cons]
    simp [List.length_cons]
  | a :: b :: rest, i + 1, h => by
    rw [pairProd_cons_cons] at h ⊢
    simp only [List.length_cons] at h ⊢
    have hrec := pairProd_getD rest i (by omega)
    simp only [List.getD_cons_succ]
    have e1 : (a :: b :: rest).getD (2 * (i + 1)) 0 = rest.getD (2 * i) 0 := by
      have e : 2 * (i + 1) = 2 * i + 1 + 1 := by omega
      rw [e]; simp only [List.getD_cons_succ]
    have e2 : (b :: rest).getD (2 * (i + 1)) 0 = rest.getD (2 * i + 1) 0 := by
      have e : 2 * (i + 1) = 2 * i + 1 + 1 := by omega
      rw [e]; simp only [List.getD_cons_succ]
    rw [hrec, e1, e2]
    by_cases hc : 2 * i + 1 < rest.length
    · rw [if_pos hc, if_pos (show 2 * (i + 1) + 1 < rest.length + 1 + 1 by omega)]
    · rw [if_neg hc, if_neg (show ¬ 2 * (i + 1) + 1 < rest.length + 1 + 1 by omega)]

/-- Every element of a level divides its parent in the next pass. -/
theorem getD_dvd_pairProd (l : List Nat) (i : Nat) (h : i < l.length) :
    l.getD i 0 ∣ (pairProd l).getD (i / 2) 0 := by
  have hi2 : i / 2 < (pairProd l).length := by rw [pairProd_length]; omega
  rw [pairProd_getD l (i / 2) hi2]
  have hsplit : i = 2 * (i / 2) ∨ i = 2 * (i / 2) + 1 := by omega
  by_cases hc : 2 * (i / 2) + 1 < l.length
  · rw [if_pos hc]
    rcases hsplit with he | ho
    · rw [← he]; exact dvd_mul_right _ _
    · rw [← ho]; exact dvd_mul_left _ _
  · rw [if_neg hc]
    have : i = 2 * (i / 2) := by omega
    rw [← this]

/-- The sequence of levels written by `product_tree` (utils.cpp lines 40-83),
bottom up: level 0 is the input, each later level is one multiplication pass
over the previous one, and the construction stops as soon as a level of size
at most 1 is reached (the `while (current_level.size() > 1)` loop plus the
final write of the last floor). -/
def buildLevels (cur : List Nat) : List (List Nat) :=
  if h : 1 < cur.length then cur :: buildLevels (pairProd cur) else [cur]
termination_by cur.length
decreasing_by exact pairProd_length_lt cur h

theorem buildLevels_of_le (cur : List Nat) (h : ¬ 1 < cur.length) :
    buildLevels cur = [cur] := by
  rw [buildLevels]; simp [h]

theorem buildLevels_of_lt (cur : List Nat) (h : 1 < cur.length) :
    buildLevels cur = cur :: buildLevels (pairProd cur) := by
  rw [buildLevels]; simp [h]

theorem buildLevels_ne_nil (cur : List Nat) : buildLevels cur ≠ [] := by
  by_cases h : 1 < cur.length
  · rw [buildLevels_of_lt cur h]; simp
  · rw [buildLevels_of_le cur h]; simp

theorem buildLevels_head (cur : List Nat) : (buildLevels cur).headD [] = cur := by
  by_cases h : 1 < cur.length
  · rw [buildLevels_of_lt cur h]; rfl
  · rw [buildLevels_of_le cur h]; rfl

theorem buildLevels_two : buildLevels [15, 77] = [[15, 77], [1155]] := by
  simp [buildLevels_of_lt, buildLevels_of_le, pairProd]

theorem buildLevels_three : buildLevels [6, 10, 15] = [[6, 10, 15], [60, 15], [900]] := by
  simp [buildLevels_of_lt, buildLevels_of_le, pairProd]

theorem getD_zero_eq_headD (l : List (List Nat)) : l.getD 0 [] = l.headD [] := by
  cases l <;> rfl

theorem getLastD_irrel (b : List Nat) (m : List (List Nat)) (d d' : List Nat) :
    (b :: m).getLastD d = (b :: m).getLastD d' := by
  cases m <;> rfl

theorem getD_last_eq_getLastD : ∀ (l : List (List Nat)) (d : List Nat), l ≠ [] →
    l.getD (l.length - 1) d = l.getLastD d
  | [], _, h => absurd rfl h
  | [a], _, _ => rfl
  | a :: b :: m, d, _ => by
    have hr := getD_last_eq_getLastD (b :: m) d (by simp)
    simp only [List.length_cons] at hr ⊢
    have e : m.length + 1 + 1 - 1 = (m.length + 1 - 1) + 1 := by omega
    rw [e, List.getD_cons_succ, hr]
    conv_rhs => rw [List.getLastD_cons]
    exact getLastD_irrel b m d a

/-- The sequence of levels of `product_tree` chains by `pairProd`: each stored
level past the bottom one is the multiplication pass of the one below it. -/
theorem buildLevels_chain (cur : List Nat) (j : Nat)
    (hj : j + 1 < (buildLevels cur).length) :
    (buildLevels cur).getD (j + 1) [] = pairProd ((buildLevels cur).getD j []) := by
  by_cases hlen : 1 < cur.length
  · rw [buildLevels_of_lt cur hlen] at hj ⊢
    cases j with
    | zero =>
      simp only [List.getD_cons_succ, List.getD_cons_zero]
      rw [getD_zero_eq_headD, buildLevels_head]
    | succ j =>
      simp only [List.getD_cons_succ]
      simp only [List.length_cons] at hj
      exact buildLevels_chain (pairProd cur) j (by omega)
  · rw [buildLevels_of_le cur hlen] at hj
    simp only [List.length_singleton] at hj
    omega
termination_by cur.length
decreasing_by exact pairProd_length_lt cur hlen

/-- The last stored level holds exactly the product of the input. -/
theorem buildLevels_getLastD (cur : List Nat) (h : cur ≠ []) (d : List Nat) :
    (buildLevels cur).getLastD d = [cur.prod] := by
  by_cases hlen : 1 < cur.length
  · rw [buildLevels_of_lt cur hlen, List.getLastD_cons]
    have hne : pairProd cur ≠ [] := by
      intro hn
      have := pairProd_length cur
      rw [hn] at this
      simp only [List.length_nil] at this
      omega
    rw [buildLevels_getLastD (pairProd cur) hne cur, pairProd_prod]
  · rw [buildLevels_of_le cur hlen]
    have h1 : cur.length = 1 := by
      have := List.length_pos.mpr h
      omega
    obtain ⟨x, hx⟩ := List.length_eq_one.mp h1
    subst hx
    simp
termination_by cur.length
decreasing_by exact pairProd_length_lt cur hlen

/-- The on-disk state of the level store together with the process-wide
`filesPerFloor` vector (utils.cpp line 7): `files l i` is the raw integer in
`data/product_tree/level<l>/<i>.gmp`, or `none` when that file is absent. -/
structure Store where
  files : Nat → Nat → Option Nat
  floors : List Nat

/-- write_level_to_file (utils.cpp lines 131-149): writes each of the
`X->size()` integers of the level to its own file `<l>/<i>.gmp`, overwriting
any file already at one of those paths and leaving every other file alone.
`filesPerFloor` is not touched here. -/
def write_level_to_file (st : Store) (l : Nat) (v : List Nat) : Store :=
  { files := fun lp i =>
      if lp = l ∧ i < v.length then some (v.getD i 0) else st.files lp i,
    floors := st.floors }

/-- read_variable_from_file (utils.cpp lines 151-165): opens
`level<level>/<index>.gmp` and reads one raw integer.  `mpz_init` first sets
the output to 0, and the results of `fopen` and `mpz_inp_raw` are never
checked, so a missing or unreadable file yields the value 0 instead of an
error. -/
def read_variable_from_file (st : Store) (level index : Nat) : Nat :=
  (st.files level index).getD 0

/-- read_level_from_file (utils.cpp lines 167-188): reads `filesPerFloor[l]`
consecutive files of level `l` in index order, each through the same
error-ignoring raw read. -/
def read_level_from_file (st : Store) (l : Nat) : List Nat :=
  (List.range (st.floors.getD l 0)).map (fun i => read_variable_from_file st l i)

/-- `filesPerFloor.push_back(n)` (utils.cpp lines 46 and 76). -/
def pushFloor (st : Store) (n : Nat) : Store :=
  { files := st.files, floors := st.floors ++ [n] }

/-- Effect of `product_tree` (utils.cpp lines 40-83) on the disk and on
`filesPerFloor`: every loop iteration records the size of the current level
and writes the level, then passes to the pairwise products; after the loop the
final level (size at most 1) is recorded and written as well. -/
def ptStore (st : Store) (cur : List Nat) (l : Nat) : Store :=
  if h : 1 < cur.length then
    ptStore (write_level_to_file (pushFloor st cur.length) l cur) (pairProd cur) (l + 1)
  else
    write_level_to_file (pushFloor st cur.length) l cur
termination_by cur.length
decreasing_by exact pairProd_length_lt cur h

theorem ptStore_of_lt (st : Store) (cur : List Nat) (l : Nat) (h : 1 < cur.length) :
    ptStore st cur l =
      ptStore (write_level_to_file (pushFloor st cur.length) l cur) (pairProd cur) (l + 1) := by
  rw [ptStore]; simp [h]

theorem ptStore_of_le (st : Store) (cur : List Nat) (l : Nat) (h : ¬ 1 < cur.length) :
    ptStore st cur l = write_level_to_file (pushFloor st cur.length) l cur := by
  rw [ptStore]; simp [h]

/-- The empty disk and empty `filesPerFloor`: the state when the entry point
starts. -/
def emptyStore : Store := ⟨fun _ _ => none, []⟩

/-- Disk state after `product_tree` has run on input `N` from a fresh start. -/
def store_after_pt (N : List Nat) : Store := ptStore emptyStore N 0

/-- Return value of `product_tree`: `l + 1`, the number of levels, which is
exactly the number of levels it wrote. -/
def product_tree_levels (N : List Nat) : Nat := (buildLevels N).length

/-- After `product_tree`, `filesPerFloor` holds the sizes of the written
levels in order. -/
theorem ptStore_floors (st : Store) (cur : List Nat) (l : Nat) :
    (ptStore st cur l).floors = st.floors ++ (buildLevels cur).map List.length := by
  by_cases h : 1 < cur.length
  · rw [ptStore_of_lt st cur l h, ptStore_floors _ (pairProd cur) (l + 1),
      buildLevels_of_lt cur h]
    simp only [write_level_to_file, pushFloor, List.map_cons]
    rw [List.append_assoc]
    rfl
  · rw [ptStore_of_le st cur l h, buildLevels_of_le cur h]
    simp only [write_level_to_file, pushFloor, List.map_cons, List.map_nil]
termination_by cur.length
decreasing_by exact pairProd_length_lt cur h

/-- After `product_tree` starting at level `l`, the file at level `lp`,
index `i` holds element `i` of level `lp - l` of the computed tree when that
position exists, and is otherwise whatever it was before. -/
theorem ptStore_files (st : Store) (cur : List Nat) (l lp i : Nat) :
    (ptStore st cur l).files lp i =
      if l ≤ lp ∧ lp - l < (buildLevels cur).length ∧
          i < ((buildLevels cur).getD (lp - l) []).length
      then some (((buildLevels cur).getD (lp - l) []).getD i 0)
      else st.files lp i := by
  by_cases h : 1 < cur.length
  · rw [ptStore_of_lt st cur l h, ptStore_files _ (pairProd cur) (l + 1) lp i,
      buildLevels_of_lt cur h]
    rcases Nat.lt_trichotomy lp l with hlt | heq | hgt
    · rw [if_neg (fun hx => by omega), if_neg (fun hx => by omega)]
      simp only [write_level_to_file, pushFloor]
      rw [if_neg (fun hx => by omega)]
    · subst heq
      rw [if_neg (fun hx => by omega)]
      simp only [write_level_to_file, pushFloor]
      rw [Nat.sub_self]
      simp only [List.getD_cons_zero, List.length_cons]
      split_ifs with h1 h2 h2
      · rfl
      · exact absurd ⟨Nat.le_refl _, by omega, h1.2⟩ h2
      · exact absurd ⟨by trivial, h2.2.2⟩ h1
      · rfl
    · have e : lp - l = (lp - (l + 1)) + 1 := by omega
      rw [e]
      simp only [List.getD_cons_succ, List.length_cons]
      simp only [write_level_to_file, pushFloor]
      rw [show (if lp = l ∧ i < cur.length then some (cur.getD i 0) else st.files lp i)
          = st.files lp i from if_neg (fun hx => by omega)]
      by_cases hc : lp - (l + 1) < (buildLevels (pairProd cur)).length ∧
          i < ((buildLevels (pairProd cur)).getD (lp - (l + 1)) []).length
      · rw [if_pos ⟨by omega, hc.1, hc.2⟩, if_pos ⟨by omega, by omega, hc.2⟩]
      · rw [if_neg (fun hx => hc ⟨hx.2.1, hx.2.2⟩),
          if_neg (fun hx => hc ⟨by omega, hx.2.2⟩)]
  · rw [ptStore_of_le st cur l h, buildLevels_of_le cur h]
    simp only [write_level_to_file, List.length_singleton, pushFloor]
    rcases Nat.lt_trichotomy lp l with hlt | heq | hgt
    · rw [if_neg (fun hx => by omega), if_neg (fun hx => by omega)]
    · subst heq
      rw [Nat.sub_self]
      simp only [List.getD_cons_zero]
      split_ifs with h1 h2 h2
      · rfl
      · exact absurd ⟨Nat.le_refl _, by omega, h1.2⟩ h2
      · exact absurd ⟨by trivial, h2.2.2⟩ h1
      · rfl
    · rw [if_neg (fun hx => by omega), if_neg (fun hx => by omega)]
termination_by cur.length
decreasing_by exact pairProd_length_lt cur h

theorem store_after_pt_floors (N : List Nat) :
    (store_after_pt N).floors = (buildLevels N).map List.length := by
  rw [store_after_pt, ptStore_floors]
  simp [emptyStore]

theorem store_after_pt_files (N : List Nat) (lp i : Nat) :
    (store_after_pt N).files lp i =
      if lp < (buildLevels N).length ∧ i < ((buildLevels N).getD lp []).length
      then some (((buildLevels N).getD lp []).getD i 0)
      else none := by
  rw [store_after_pt, ptStore_files]
  simp only [Nat.sub_zero, Nat.zero_le, true_and, emptyStore]

theorem getD_map_length (L : List (List Nat)) (i : Nat) (h : i < L.length) :
    (L.map List.length).getD i 0 = (L.getD i []).length := by
  rw [List.getD_eq_getElem _ _ (by simpa using h), List.getD_eq_getElem _ _ h,
    List.getElem_map]

/-- Reading a level of the tree back from disk recovers exactly the level the
builder computed. -/
theorem read_level_store_after_pt (N : List Nat) (lp : Nat)
    (hlp : lp < (buildLevels N).length) :
    read_level_from_file (store_after_pt N) lp = (buildLevels N).getD lp [] := by
  rw [read_level_from_file]
  have hfl : (store_after_pt N).floors.getD lp 0 = ((buildLevels N).getD lp []).length := by
    rw [store_after_pt_floors, getD_map_length _ _ hlp]
  rw [hfl]
  apply List.ext_getElem (by simp)
  intro n h1 h2
  rw [List.getElem_map, List.getElem_range]
  rw [read_variable_from_file, store_after_pt_files]
  rw [if_pos ⟨hlp, by simpa using h2⟩]
  rw [Option.getD_some, List.getD_eq_getElem _ _ h2]

/-- Reading the single file of the top level recovers the product of the
input. -/
theorem read_root_store_after_pt (N : List Nat) (h : N ≠ []) :
    read_variable_from_file (store_after_pt N) ((buildLevels N).length - 1) 0 = N.prod := by
  have hne := buildLevels_ne_nil N
  have hpos : 0 < (buildLevels N).length := List.length_pos.mpr hne
  have htop : (buildLevels N).getD ((buildLevels N).length - 1) [] = [N.prod] := by
    rw [getD_last_eq_getLastD _ _ hne, buildLevels_getLastD N h]
  rw [read_variable_from_file, store_after_pt_files, if_pos ⟨by omega, by rw [htop]; simp⟩,
    htop]
  rfl

/-- remainders_squares (utils.cpp lines 85-97): reads level 0 into `R` and the
root `Z` from the top level, then replaces each `R[i]` by `Z mod R[i]^2`. -/
def remainders_squares (st : Store) (levels : Nat) : List Nat :=
  (read_level_from_file st 0).map
    (fun x => read_variable_from_file st (levels - 1) 0 % (x * x))

/-- Body of one descent iteration of remainders_squares_fast (utils.cpp lines
114-127): for each index `i` of level `l` (as counted by `filesPerFloor[l]`),
the new remainder is `R[i/2] mod square` where `square` is the square of the
`i`-th stored integer of level `l`. -/
def fastStep (st : Store) (l : Nat) (R : List Nat) : List Nat :=
  (List.range (st.floors.getD l 0)).map
    (fun i => R.getD (i / 2) 0 %
      (read_variable_from_file st l i * read_variable_from_file st l i))

/-- remainders_squares_fast (utils.cpp lines 99-130): starts from the top
level, fails (throws) unless it has exactly one element, then descends the
levels `levels-2, ..., 0`, rebuilding `R` with `fastStep` at each one. -/
def remainders_squares_fast (st : Store) (levels : Nat) : Option (List Nat) :=
  if (read_level_from_file st (levels - 1)).length = 1 then
    some (((List.range (levels - 1)).reverse).foldl
      (fun R l => fastStep st l R) (read_level_from_file st (levels - 1)))
  else none

/-- Pure view of one descent iteration, with the reads of level `l` resolved
to the level contents. -/
def fastStepPure (R level : List Nat) : List Nat :=
  (List.range level.length).map
    (fun i => R.getD (i / 2) 0 % (level.getD i 0 * level.getD i 0))

/-- Recursive form of the full descent of remainders_squares_fast over the
tree of `cur`: the result of folding `fastStepPure` from the root level down
to the leaves. -/
def descend (cur : List Nat) : List Nat :=
  if h : 1 < cur.length then fastStepPure (descend (pairProd cur)) cur else cur
termination_by cur.length
decreasing_by exact pairProd_length_lt cur h

theorem descend_of_lt (cur : List Nat) (h : 1 < cur.length) :
    descend cur = fastStepPure (descend (pairProd cur)) cur := by
  rw [descend]; simp [h]

theorem descend_of_le (cur : List Nat) (h : ¬ 1 < cur.length) :
    descend cur = cur := by
  rw [descend]; simp [h]

theorem fastStepPure_length (R level : List Nat) :
    (fastStepPure R level).length = level.length := by
  rw [fastStepPure]; simp

theorem descend_length (cur : List Nat) : (descend cur).length = cur.length := by
  by_cases h : 1 < cur.length
  · rw [descend_of_lt cur h, fastStepPure_length]
  · rw [descend_of_le cur h]

theorem fastStepPure_getD (R level : List Nat) (i : Nat) (h : i < level.length) :
    (fastStepPure R level).getD i 0 =
      R.getD (i / 2) 0 % (level.getD i 0 * level.getD i 0) := by
  rw [fastStepPure, List.getD_eq_getElem _ _ (by simpa using h), List.getElem_map,
    List.getElem_range]

/-- Invariant of the descent: after processing the level of `cur`, entry `j`
is congruent to the global product modulo the square of `cur[j]`. -/
theorem descend_modEq (cur : List Nat) (j : Nat) (hj : j < cur.length) :
    (descend cur).getD j 0 ≡ cur.prod [MOD cur.getD j 0 * cur.getD j 0] := by
  by_cases h : 1 < cur.length
  · rw [descend_of_lt cur h, fastStepPure_getD _ _ _ hj]
    have hj2 : j / 2 < (pairProd cur).length := by rw [pairProd_length]; omega
    have ih := descend_modEq (pairProd cur) (j / 2) hj2
    rw [pairProd_prod] at ih
    have hdvd : cur.getD j 0 * cur.getD j 0 ∣
        (pairProd cur).getD (j / 2) 0 * (pairProd cur).getD (j / 2) 0 :=
      mul_dvd_mul (getD_dvd_pairProd cur j hj) (getD_dvd_pairProd cur j hj)
    have ih2 := ih.of_dvd hdvd
    exact (Nat.mod_modEq _ _).trans ih2
  · rw [descend_of_le cur h]
    have h1 : cur.length = 1 := by omega
    obtain ⟨x, hx⟩ := List.length_eq_one.mp h1
    subst hx
    have hj0 : j = 0 := by omega
    subst hj0
    simp [Nat.ModEq.refl]
termination_by cur.length
decreasing_by exact pairProd_length_lt cur h

/-- For at least two inputs, the descent computes exactly the remainders of
the global product modulo the squares of the leaves. -/
theorem descend_getD (cur : List Nat) (h2 : 2 ≤ cur.length) (j : Nat)
    (hj : j < cur.length) :
    (descend cur).getD j 0 = cur.prod % (cur.getD j 0 * cur.getD j 0) := by
  have h : 1 < cur.length := by omega
  rw [descend_of_lt cur h, fastStepPure_getD _ _ _ hj]
  have hj2 : j / 2 < (pairProd cur).length := by rw [pairProd_length]; omega
  have ih := descend_modEq (pairProd cur) (j / 2) hj2
  rw [pairProd_prod] at ih
  by_cases hz : cur.getD j 0 = 0
  · have hpz : (pairProd cur).getD (j / 2) 0 = 0 := by
      have := getD_dvd_pairProd cur j hj
      rw [hz] at this
      exact Nat.eq_zero_of_zero_dvd this
    have hprodz : cur.prod = 0 := by
      apply List.prod_eq_zero
      rw [← hz, List.getD_eq_getElem _ _ hj]
      exact List.getElem_mem _
    have hd0 : (descend (pairProd cur)).getD (j / 2) 0 = 0 := by
      have := ih
      rw [hpz, hprodz] at this
      simpa [Nat.ModEq] using this
    rw [hd0, hz, hprodz]
  · have hsq : 0 < cur.getD j 0 * cur.getD j 0 := Nat.mul_pos (by omega) (by omega)
    have hdvd : cur.getD j 0 * cur.getD j 0 ∣
        (pairProd cur).getD (j / 2) 0 * (pairProd cur).getD (j / 2) 0 :=
      mul_dvd_mul (getD_dvd_pairProd cur j hj) (getD_dvd_pairProd cur j hj)
    have ih2 := ih.of_dvd hdvd
    have hmod : (descend (pairProd cur)).getD (j / 2) 0 %
        (cur.getD j 0 * cur.getD j 0) ≡ cur.prod [MOD cur.getD j 0 * cur.getD j 0] :=
      (Nat.mod_modEq _ _).trans ih2
    have hlt : (descend (pairProd cur)).getD (j / 2) 0 %
        (cur.getD j 0 * cur.getD j 0) < cur.getD j 0 * cur.getD j 0 :=
      Nat.mod_lt _ hsq
    have hfin : (descend (pairProd cur)).getD (j / 2) 0 % (cur.getD j 0 * cur.getD j 0) %
        (cur.getD j 0 * cur.getD j 0) = cur.prod % (cur.getD j 0 * cur.getD j 0) := hmod
    rwa [Nat.mod_mod_of_dvd _ (dvd_refl _)] at hfin

/-- With the tree of `N` on disk, one descent iteration at level `l` reads
back exactly the stored level. -/
theorem fastStep_store (N : List Nat) (l : Nat) (hl : l < (buildLevels N).length)
    (R : List Nat) :
    fastStep (store_after_pt N) l R = fastStepPure R ((buildLevels N).getD l []) := by
  rw [fastStep, fastStepPure]
  have hfl : (store_after_pt N).floors.getD l 0 = ((buildLevels N).getD l []).length := by
    rw [store_after_pt_floors, getD_map_length _ _ hl]
  rw [hfl]
  apply List.ext_getElem (by simp)
  intro n h1 h2
  rw [List.getElem_map, List.getElem_map, List.getElem_range]
  have hn : n < ((buildLevels N).getD l []).length := by simpa using h2
  have hrv : read_variable_from_file (store_after_pt N) l n =
      ((buildLevels N).getD l []).getD n 0 := by
    rw [read_variable_from_file, store_after_pt_files, if_pos ⟨hl, hn⟩]
    rfl
  rw [hrv]

theorem dropLast_eq_range_map (N : List Nat) :
    (buildLevels N).dropLast =
      (List.range ((buildLevels N).length - 1)).map (fun l => (buildLevels N).getD l []) := by
  apply List.ext_getElem (by simp)
  intro n h1 h2
  rw [List.getElem_map, List.getElem_range, List.getElem_dropLast]
  rw [List.getD_eq_getElem]

/-- Folding the pure descent step from the root level down over the stored
levels is the recursive descent. -/
theorem foldl_pure_eq_descend (cur : List Nat) :
    ((buildLevels cur).dropLast.reverse).foldl fastStepPure ((buildLevels cur).getLastD [])
      = descend cur := by
  by_cases h : 1 < cur.length
  · rw [buildLevels_of_lt cur h]
    have hne := buildLevels_ne_nil (pairProd cur)
    obtain ⟨b0, bl0, hb⟩ := List.exists_cons_of_ne_nil hne
    rw [List.dropLast_cons_of_ne_nil hne, List.getLastD_cons, List.reverse_cons,
      List.foldl_append]
    have hirr : (buildLevels (pairProd cur)).getLastD cur
        = (buildLevels (pairProd cur)).getLastD [] := by
      rw [hb]; exact getLastD_irrel b0 bl0 cur []
    rw [hirr, foldl_pure_eq_descend (pairProd cur), descend_of_lt cur h]
    rfl
  · rw [buildLevels_of_le cur h, descend_of_le cur h]
    rfl
termination_by cur.length
decreasing_by exact pairProd_length_lt cur h

/-- The fast variant, run on the tree of `N`, succeeds and computes the
recursive descent. -/
theorem fast_eq_descend (N : List Nat) (h : N ≠ []) :
    remainders_squares_fast (store_after_pt N) (product_tree_levels N)
      = some (descend N) := by
  have hne := buildLevels_ne_nil N
  have hpos : 0 < (buildLevels N).length := List.length_pos.mpr hne
  have htoplt : (buildLevels N).length - 1 < (buildLevels N).length := by omega
  have htop : read_level_from_file (store_after_pt N) (product_tree_levels N - 1)
      = [N.prod] := by
    rw [product_tree_levels, read_level_store_after_pt N _ htoplt,
      getD_last_eq_getLastD _ _ hne, buildLevels_getLastD N h]
  rw [remainders_squares_fast, htop, if_pos (List.length_singleton N.prod)]
  congr 1
  have hstep : ∀ (R : List Nat), ∀ l ∈ (List.range (product_tree_levels N - 1)).reverse,
      fastStep (store_after_pt N) l R = fastStepPure R ((buildLevels N).getD l []) := by
    intro R l hlmem
    have : l < (buildLevels N).length - 1 := by
      rw [List.mem_reverse, List.mem_range, product_tree_levels] at hlmem
      exact hlmem
    exact fastStep_store N l (by omega) R
  rw [List.foldl_ext _ _ _ hstep]
  have hmapped : (List.range (product_tree_levels N - 1)).reverse.map
      (fun l => (buildLevels N).getD l []) = (buildLevels N).dropLast.reverse := by
    rw [product_tree_levels, List.map_reverse, ← dropLast_eq_range_map]
  rw [← foldl_pure_eq_descend N, ← hmapped, List.foldl_map]
  have hlast : [N.prod] = (buildLevels N).getLastD [] := by
    rw [buildLevels_getLastD N h]
  rw [hlast]

/-- The frugal variant, run on the tree of `N`, maps each leaf `x` to
`Z mod x^2` where `Z` is the product of all inputs. -/
theorem remainders_squares_store (N : List Nat) (h : N ≠ []) :
    remainders_squares (store_after_pt N) (product_tree_levels N)
      = N.map (fun x => N.prod % (x * x)) := by
  have hpos : 0 < (buildLevels N).length := List.length_pos.mpr (buildLevels_ne_nil N)
  rw [remainders_squares, product_tree_levels, read_level_store_after_pt N 0 hpos,
    getD_zero_eq_headD, buildLevels_head, read_root_store_after_pt N h]

/-- Effect of `product_tree` on the caller's vector `*X` (utils.cpp lines
40-71): inside the loop, right after level 0 has been written and multiplied,
`vector<mpz_class>().swap(*X)` empties the caller's vector; at later levels
`X` is untouched, and when the loop never runs (size at most 1) `X` is never
touched at all. -/
def ptInput (cur : List Nat) (l : Nat) (X : List Nat) : List Nat :=
  if h : 1 < cur.length then
    ptInput (pairProd cur) (l + 1) (if l = 0 then [] else X)
  else X
termination_by cur.length
decreasing_by exact pairProd_length_lt cur h

theorem ptInput_of_lt (cur : List Nat) (l : Nat) (X : List Nat) (h : 1 < cur.length) :
    ptInput cur l X = ptInput (pairProd cur) (l + 1) (if l = 0 then [] else X) := by
  rw [ptInput]; simp [h]

theorem ptInput_of_le (cur : List Nat) (l : Nat) (X : List Nat) (h : ¬ 1 < cur.length) :
    ptInput cur l X = X := by
  rw [ptInput]; simp [h]

theorem ptInput_succ (cur : List Nat) (l : Nat) (X : List Nat) :
    ptInput cur (l + 1) X = X := by
  by_cases h : 1 < cur.length
  · rw [ptInput_of_lt cur (l + 1) X h, if_neg (by omega)]
    exact ptInput_succ (pairProd cur) (l + 1) X
  · exact ptInput_of_le cur (l + 1) X h
termination_by cur.length
decreasing_by exact pairProd_length_lt cur h

/-- The caller's moduli vector as `product_tree` leaves it. -/
def product_tree_input_after (X : List Nat) : List Nat := ptInput X 0 X

theorem product_tree_input_after_of_lt (X : List Nat) (h : 1 < X.length) :
    product_tree_input_after X = [] := by
  rw [product_tree_input_after, ptInput_of_lt X 0 X h, if_pos rfl]
  exact ptInput_succ (pairProd X) 0 []

theorem product_tree_input_after_of_le (X : List Nat) (h : ¬ 1 < X.length) :
    product_tree_input_after X = X :=
  ptInput_of_le X 0 X h

/-- Final loop of the entry point (part_000 lines 53-57): for each index `i`
below `input_moduli.size()` (the vector as `product_tree` left it), `R[i]` is
replaced by `gcd(R[i] / input_moduli[i], input_moduli[i])`; every other entry
of `R` is left as it was. -/
def final_gcds (inp R : List Nat) : List Nat :=
  (List.range R.length).map
    (fun i => if i < inp.length
      then Nat.gcd (R.getD i 0 / inp.getD i 0) (inp.getD i 0)
      else R.getD i 0)

/-- The compromised-moduli count the entry point prints (part_000 lines
58-64): the number of entries of the final `R` different from 1. -/
def count_compromised (R : List Nat) : Nat :=
  (R.filter (fun r => decide (r ≠ 1))).length

/-- The whole entry point on input moduli `N`: product tree (destroying
`input_moduli` when it has at least two entries), frugal remainders, final
division/gcd loop, and the printed count. -/
def main_run (N : List Nat) : List Nat × Nat :=
  (final_gcds (product_tree_input_after N)
      (remainders_squares (store_after_pt N) (product_tree_levels N)),
    count_compromised (final_gcds (product_tree_input_after N)
      (remainders_squares (store_after_pt N) (product_tree_levels N))))

theorem final_gcds_length (inp R : List Nat) : (final_gcds inp R).length = R.length := by
  rw [final_gcds]; simp

theorem final_gcds_getD (inp R : List Nat) (i : Nat) (hi : i < R.length) :
    (final_gcds inp R).getD i 0 =
      if i < inp.length
      then Nat.gcd (R.getD i 0 / inp.getD i 0) (inp.getD i 0)
      else R.getD i 0 := by
  rw [final_gcds, List.getD_eq_getElem _ _ (by simpa using hi), List.getElem_map,
    List.getElem_range]

/-- The remainder vector in scope when the descent loop of
remainders_squares_fast begins the iteration for level `l`: the initial top
level folded through the iterations for levels `levels-2, ..., l+1`. -/
def fastR_at (N : List Nat) (l : Nat) : List Nat :=
  ((List.range' (l + 1) (product_tree_levels N - 1 - (l + 1))).reverse).foldl
    (fun R lp => fastStep (store_after_pt N) lp R)
    (read_level_from_file (store_after_pt N) (product_tree_levels N - 1))

theorem getLastD_irrel' {α : Type} (b : α) (m : List α) (d d' : α) :
    (b :: m).getLastD d = (b :: m).getLastD d' := by
  cases m <;> rfl

theorem getLastD_reverse {α : Type} (l : List α) (d : α) :
    l.reverse.getLastD d = l.headD d := by
  cases l with
  | nil => rfl
  | cons a m => rw [List.reverse_cons, List.getLastD_concat]; rfl

theorem fastStep_length (st : Store) (l : Nat) (R : List Nat) :
    (fastStep st l R).length = st.floors.getD l 0 := by
  rw [fastStep]; simp

theorem foldl_fastStep_length (st : Store) :
    ∀ (ls : List Nat) (init : List Nat), ls ≠ [] →
      (ls.foldl (fun R lp => fastStep st lp R) init).length
        = st.floors.getD (ls.getLastD 0) 0
  | [], _, h => absurd rfl h
  | [a], init, _ => by
    simp only [List.foldl_cons, List.foldl_nil]
    rw [fastStep_length]
    rfl
  | a :: b :: m, init, _ => by
    simp only [List.foldl_cons]
    have hr := foldl_fastStep_length st (b :: m) (fastStep st a init) (by simp)
    simp only [List.foldl_cons] at hr
    rw [hr]
    conv_rhs => rw [List.getLastD_cons]
    rw [getLastD_irrel' b m a 0]

theorem store_after_pt_floors_getD (N : List Nat) (l : Nat)
    (hl : l < (buildLevels N).length) :
    (store_after_pt N).floors.getD l 0 = ((buildLevels N).getD l []).length := by
  rw [store_after_pt_floors, getD_map_length _ _ hl]

/-- Size of the level above: the ceiling of half the size below. -/
theorem buildLevels_length_succ (N : List Nat) (l : Nat)
    (h : l + 1 < (buildLevels N).length) :
    ((buildLevels N).getD (l + 1) []).length
      = (((buildLevels N).getD l []).length + 1) / 2 := by
  rw [buildLevels_chain N l h, pairProd_length]

/-- The remainder vector current at the iteration for level `l` has the size
of level `l + 1`. -/
theorem fastR_at_length (N : List Nat) (l : Nat)
    (hl : l + 1 < product_tree_levels N) :
    (fastR_at N l).length = ((buildLevels N).getD (l + 1) []).length := by
  rw [fastR_at]
  by_cases hc : product_tree_levels N - 1 - (l + 1) = 0
  · have hl1 : l + 1 = product_tree_levels N - 1 := by
      simp only [product_tree_levels] at hl hc ⊢; omega
    rw [hc]
    simp only [List.range'_eq_nil.mpr rfl, List.reverse_nil, List.foldl_nil]
    rw [read_level_from_file]
    simp only [List.length_map, List.length_range]
    rw [hl1]
    have hpos : 0 < (buildLevels N).length := List.length_pos.mpr (buildLevels_ne_nil N)
    exact store_after_pt_floors_getD N _ (by simp only [product_tree_levels]; omega)
  · have hne : (List.range' (l + 1) (product_tree_levels N - 1 - (l + 1))).reverse ≠ [] := by
      rw [ne_eq, List.reverse_eq_nil_iff, List.range'_eq_nil]
      exact hc
    rw [foldl_fastStep_length _ _ _ hne, getLastD_reverse]
    obtain ⟨m, hm⟩ : ∃ m, product_tree_levels N - 1 - (l + 1) = m + 1 :=
      ⟨product_tree_levels N - 1 - (l + 1) - 1, by omega⟩
    rw [hm, List.range'_succ]
    simp only [List.headD_cons]
    exact store_after_pt_floors_getD N _ (by simp only [product_tree_levels] at hl; omega)

theorem final_gcds_nil (R : List Nat) : final_gcds [] R = R := by
  rw [final_gcds]
  apply List.ext_getElem (by simp)
  intro n h1 h2
  rw [List.getElem_map, List.getElem_range]
  rw [if_neg (by simp), List.getD_eq_getElem _ _ h2]

/-- The two remainder variants agree whenever at least two moduli are
present: both produce `Z mod N[i]^2` at every index. -/
theorem variants_agree_of_two_le (N : List Nat) (h2 : 2 ≤ N.length) :
    remainders_squares_fast (store_after_pt N) (product_tree_levels N)
      = some (remainders_squares (store_after_pt N) (product_tree_levels N)) := by
  have hne : N ≠ [] := by
    intro h
    rw [h] at h2
    simp at h2
  rw [fast_eq_descend N hne, remainders_squares_store N hne]
  congr 1
  apply List.ext_getElem (by rw [descend_length]; simp)
  intro n h1 h2'
  have hn : n < N.length := by rwa [descend_length] at h1
  rw [List.getElem_map]
  rw [← List.getD_eq_getElem (descend N) 0 h1, descend_getD N h2 n hn,
    List.getD_eq_getElem N 0 hn]

/-- On a one-modulus input `[n]` with `n ≠ 1` the variants also agree: both
return `[n]` (for `n ≥ 2` because `n mod n^2 = n`, for `n = 0` because
`0 mod 0 = 0`). -/
theorem variants_agree_of_singleton (n : Nat) (hn : n ≠ 1) :
    remainders_squares_fast (store_after_pt [n]) (product_tree_levels [n])
      = some (remainders_squares (store_after_pt [n]) (product_tree_levels [n])) := by
  have hne : ([n] : List Nat) ≠ [] := by simp
  rw [fast_eq_descend _ hne, remainders_squares_store _ hne,
    descend_of_le _ (by simp), List.map_singleton, List.prod_singleton]
  congr 2
  rcases Nat.eq_zero_or_pos n with h0 | hpos
  · subst h0; rfl
  · have h2 : 2 ≤ n := by omega
    have hmul : 2 * n ≤ n * n := Nat.mul_le_mul_right n h2
    rw [Nat.mod_eq_of_lt (by omega)]

/-! ### Claims -/

/-- C3.  Memory-frugal remainder computation: for every input sequence
`N[0..k)` with `k >= 1` whose product tree has been built, after
`remainders_squares` the vector `R` has length `k` and for every `i`,
`R[i]` equals the product of all `N[j]` modulo `N[i]` squared. -/
theorem remainders_squares_correct (N : List Nat) (hk : 1 ≤ N.length) :
    (remainders_squares (store_after_pt N) (product_tree_levels N)).length = N.length ∧
    ∀ i, i < N.length →
      (remainders_squares (store_after_pt N) (product_tree_levels N)).getD i 0
        = N.prod % (N.getD i 0 * N.getD i 0) := by
  have hne : N ≠ [] := by
    intro h
    rw [h] at hk
    simp at hk
  rw [remainders_squares_store N hne]
  constructor
  · simp
  · intro i hi
    rw [List.getD_eq_getElem _ _ (by simpa using hi), List.getElem_map,
      List.getD_eq_getElem _ _ hi]

theorem remainders_squares_correct_witness :
    (1 ≤ ([6, 10, 15] : List Nat).length) ∧
    ((remainders_squares (store_after_pt [6, 10, 15])
        (product_tree_levels [6, 10, 15])).length = ([6, 10, 15] : List Nat).length ∧
      (remainders_squares (store_after_pt [6, 10, 15])
        (product_tree_levels [6, 10, 15])).getD 1 0
        = ([6, 10, 15] : List Nat).prod %
            (([6, 10, 15] : List Nat).getD 1 0 * ([6, 10, 15] : List Nat).getD 1 0)) ∧
    ([6, 10, 15] : List Nat).prod %
        (([6, 10, 15] : List Nat).getD 1 0 * ([6, 10, 15] : List Nat).getD 1 0) = 0 :=
  ⟨by decide,
   ⟨(remainders_squares_correct [6, 10, 15] (by decide)).1,
    (remainders_squares_correct [6, 10, 15] (by decide)).2 1 (by decide)⟩,
   by decide⟩

/-- C4.  Product-tree root: for every input sequence of non-zero moduli with
`k >= 1`, after `product_tree` completes the top level `L-1` contains exactly
one element and it equals the product of all inputs. -/
theorem product_tree_root_correct (N : List Nat) (hk : 1 ≤ N.length)
    (hnz : ∀ x ∈ N, x ≠ 0) :
    (read_level_from_file (store_after_pt N) (product_tree_levels N - 1)).length = 1 ∧
    read_level_from_file (store_after_pt N) (product_tree_levels N - 1) = [N.prod] := by
  have hne : N ≠ [] := by
    intro h
    rw [h] at hk
    simp at hk
  have hbne := buildLevels_ne_nil N
  have hpos : 0 < (buildLevels N).length := List.length_pos.mpr hbne
  have htop : read_level_from_file (store_after_pt N) (product_tree_levels N - 1)
      = [N.prod] := by
    rw [product_tree_levels, read_level_store_after_pt N _ (by omega),
      getD_last_eq_getLastD _ _ hbne, buildLevels_getLastD N hne]
  exact ⟨by rw [htop, List.length_singleton], htop⟩

theorem product_tree_root_correct_witness :
    (1 ≤ ([6, 10, 15] : List Nat).length ∧ (∀ x ∈ ([6, 10, 15] : List Nat), x ≠ 0)) ∧
    (read_level_from_file (store_after_pt [6, 10, 15])
        (product_tree_levels [6, 10, 15] - 1)).length = 1 ∧
    read_level_from_file (store_after_pt [6, 10, 15])
        (product_tree_levels [6, 10, 15] - 1) = [900] := by
  have h := product_tree_root_correct [6, 10, 15] (by decide) (by decide)
  exact ⟨⟨by decide, by decide⟩, h.1, by rw [h.2]; decide⟩

/-- C6.  Level construction and orphan carry: for every level `l+1` of the
stored tree and every index `i` of that level, element `i` is the product of
elements `2i` and `2i+1` of level `l`, except that when `2i+1` is past the end
of level `l` it is element `2i` unchanged; in particular when level `l` has
odd size its unpaired last element reappears as the last element of level
`l+1`. -/
theorem level_construction_correct (N : List Nat) (l : Nat)
    (hl : l + 1 < product_tree_levels N) :
    (∀ i, i < (read_level_from_file (store_after_pt N) (l + 1)).length →
      (read_level_from_file (store_after_pt N) (l + 1)).getD i 0 =
        if 2 * i + 1 < (read_level_from_file (store_after_pt N) l).length
        then (read_level_from_file (store_after_pt N) l).getD (2 * i) 0 *
          (read_level_from_file (store_after_pt N) l).getD (2 * i + 1) 0
        else (read_level_from_file (store_after_pt N) l).getD (2 * i) 0) ∧
    ((read_level_from_file (store_after_pt N) l).length % 2 = 1 →
      (read_level_from_file (store_after_pt N) (l + 1)).getD
          ((read_level_from_file (store_after_pt N) (l + 1)).length - 1) 0 =
        (read_level_from_file (store_after_pt N) l).getD
          ((read_level_from_file (store_after_pt N) l).length - 1) 0) := by
  simp only [product_tree_levels] at hl
  rw [read_level_store_after_pt N (l + 1) hl, read_level_store_after_pt N l (by omega),
    buildLevels_chain N l hl]
  constructor
  · intro i hi
    exact pairProd_getD _ i hi
  · intro hodd
    have hlen := pairProd_length ((buildLevels N).getD l [])
    have hne : 0 < ((buildLevels N).getD l []).length := by omega
    have hi : (pairProd ((buildLevels N).getD l [])).length - 1
        < (pairProd ((buildLevels N).getD l [])).length := by omega
    rw [pairProd_getD _ _ hi]
    have h2i : 2 * ((pairProd ((buildLevels N).getD l [])).length - 1)
        = ((buildLevels N).getD l []).length - 1 := by
      rw [hlen]; omega
    rw [h2i, if_neg (by omega)]

theorem level_construction_correct_witness :
    (0 + 1 < product_tree_levels [6, 10, 15]) ∧
    ((read_level_from_file (store_after_pt [6, 10, 15]) 0).length % 2 = 1 →
      (read_level_from_file (store_after_pt [6, 10, 15]) 1).getD
          ((read_level_from_file (store_after_pt [6, 10, 15]) 1).length - 1) 0 =
        (read_level_from_file (store_after_pt [6, 10, 15]) 0).getD
          ((read_level_from_file (store_after_pt [6, 10, 15]) 0).length - 1) 0) := by
  have h1 : 0 + 1 < product_tree_levels [6, 10, 15] := by
    simp [product_tree_levels, buildLevels_of_lt, buildLevels_of_le, pairProd]
  exact ⟨h1, (level_construction_correct [6, 10, 15] 0 h1).2⟩

/-- C5, counterexample.  On the single-modulus input `[1]` the two variants
disagree: the frugal variant computes `[1 mod 1] = [0]` while the fast variant
returns the top level `[1]` untouched (the descent loop body never runs). -/
theorem variants_differ_on_singleton_one :
    remainders_squares_fast (store_after_pt [1]) (product_tree_levels [1])
      ≠ some (remainders_squares (store_after_pt [1]) (product_tree_levels [1])) := by
  rw [fast_eq_descend [1] (by simp), remainders_squares_store [1] (by simp),
    descend_of_le _ (by simp)]
  simp

/-- C5, amended.  For every input sequence with `k >= 1` other than the
single-element sequence `[1]`, the memory-frugal and the fast variant produce
element-wise identical remainder vectors. -/
theorem variants_agree (N : List Nat) (hk : 1 ≤ N.length) (hN : N ≠ [1]) :
    remainders_squares_fast (store_after_pt N) (product_tree_levels N)
      = some (remainders_squares (store_after_pt N) (product_tree_levels N)) := by
  rcases Nat.lt_or_ge N.length 2 with h1 | h2
  · have hlen : N.length = 1 := by omega
    obtain ⟨n, rfl⟩ := List.length_eq_one.mp hlen
    have hn : n ≠ 1 := by
      intro h
      subst h
      exact hN rfl
    exact variants_agree_of_singleton n hn
  · exact variants_agree_of_two_le N h2

theorem variants_agree_witness :
    (1 ≤ ([6, 10, 15] : List Nat).length ∧ ([6, 10, 15] : List Nat) ≠ [1]) ∧
    remainders_squares_fast (store_after_pt [6, 10, 15]) (product_tree_levels [6, 10, 15])
      = some (remainders_squares (store_after_pt [6, 10, 15])
          (product_tree_levels [6, 10, 15])) :=
  ⟨⟨by decide, by decide⟩, variants_agree [6, 10, 15] (by decide) (by decide)⟩

/-- C7, counterexample.  `read_level_from_file` reads `filesPerFloor[l]` files,
not the number just written: with `filesPerFloor = [1]`, writing the
two-element level `[5, 7]` at level 0 and reading the level back yields `[5]`,
not `[5, 7]`. -/
theorem write_read_level_not_inverse :
    read_level_from_file (write_level_to_file ⟨fun _ _ => none, [1]⟩ 0 [5, 7]) 0
      ≠ [5, 7] := by decide

/-- C7, amended.  Whenever `filesPerFloor[l]` equals the length of `v` (as is
the case for every level written by `product_tree`, which pushes the size just
before writing), writing `v` at level `l` and reading that level back yields a
sequence element-wise equal to `v`, in the same order. -/
theorem write_read_level_roundtrip (st : Store) (l : Nat) (v : List Nat)
    (h : st.floors.getD l 0 = v.length) :
    read_level_from_file (write_level_to_file st l v) l = v := by
  rw [read_level_from_file]
  simp only [write_level_to_file]
  rw [h]
  apply List.ext_getElem (by simp)
  intro n h1 h2
  rw [List.getElem_map, List.getElem_range]
  rw [read_variable_from_file]
  simp only []
  rw [if_pos ⟨by trivial, h2⟩, Option.getD_some, List.getD_eq_getElem _ _ h2]

theorem write_read_level_roundtrip_witness :
    ((⟨fun _ _ => none, [2]⟩ : Store).floors.getD 0 0 = ([5, 7] : List Nat).length) ∧
    read_level_from_file (write_level_to_file ⟨fun _ _ => none, [2]⟩ 0 [5, 7]) 0
      = [5, 7] :=
  ⟨by decide, write_read_level_roundtrip ⟨fun _ _ => none, [2]⟩ 0 [5, 7] (by decide)⟩

/-- C8.  The read operations never fail: with no file on disk at level 0,
`read_variable_from_file` returns the value 0 (the `mpz_init` default, the
error results of `fopen` and `mpz_inp_raw` being ignored), and
`read_level_from_file` over a manifest of two missing files returns `[0, 0]` —
a value, not a StorageError. -/
theorem reads_ignore_missing_files :
    read_variable_from_file emptyStore 0 0 = 0 ∧
    read_level_from_file ⟨fun _ _ => none, [2]⟩ 0 = [0, 0] := by decide

/-- C9.  In `remainders_squares_fast`, at the descent iteration for level `l`
every parent index `i/2` with `i` below `filesPerFloor[l]` is strictly smaller
than the length of the remainder vector `R` in scope at that iteration, so the
access `(*R)[i/2]` is in bounds, orphan-carry levels included. -/
theorem fast_parent_index_in_bounds (N : List Nat) (l i : Nat)
    (hl : l + 1 < product_tree_levels N)
    (hi : i < (store_after_pt N).floors.getD l 0) :
    i / 2 < (fastR_at N l).length := by
  have hl2 : l + 1 < (buildLevels N).length := by
    simpa [product_tree_levels] using hl
  rw [fastR_at_length N l hl, buildLevels_length_succ N l hl2]
  rw [store_after_pt_floors_getD N l (by omega)] at hi
  omega

theorem fast_parent_index_in_bounds_witness :
    (0 + 1 < product_tree_levels [6, 10, 15] ∧
      2 < (store_after_pt [6, 10, 15]).floors.getD 0 0) ∧
    2 / 2 < (fastR_at [6, 10, 15] 0).length := by
  have h1 : 0 + 1 < product_tree_levels [6, 10, 15] := by
    simp [product_tree_levels, buildLevels_of_lt, buildLevels_of_le, pairProd]
  have h2 : 2 < (store_after_pt [6, 10, 15]).floors.getD 0 0 := by
    rw [store_after_pt_floors]
    simp [buildLevels_of_lt, buildLevels_of_le, pairProd]
  exact ⟨⟨h1, h2⟩, fast_parent_index_in_bounds [6, 10, 15] 0 2 h1 h2⟩

/-- C10.  `product_tree` empties the caller's vector exactly when the input
has at least two elements; a single-element input is left unchanged. -/
theorem product_tree_input_frame (X : List Nat) (hk : 1 ≤ X.length) :
    (product_tree_input_after X = [] ↔ 2 ≤ X.length) ∧
    (X.length = 1 → product_tree_input_after X = X) := by
  constructor
  · constructor
    · intro he
      by_contra hlt
      have h1 : ¬ 1 < X.length := by omega
      rw [product_tree_input_after_of_le X h1] at he
      rw [he] at hk
      simp at hk
    · intro h2
      exact product_tree_input_after_of_lt X (by omega)
  · intro h1
    exact product_tree_input_after_of_le X (by omega)

theorem product_tree_input_frame_witness :
    (1 ≤ ([7] : List Nat).length) ∧
    ((product_tree_input_after [7] = [] ↔ 2 ≤ ([7] : List Nat).length) ∧
      (([7] : List Nat).length = 1 → product_tree_input_after [7] = [7])) :=
  ⟨by decide, product_tree_input_frame [7] (by decide)⟩

/-- C1.  The final division-and-gcd stage of the entry point iterates over
`input_moduli`, which `product_tree` has already emptied whenever at least two
moduli were read, so for `N = [15, 77]` the loop body never runs: the final
`R` is still the raw remainder vector `[30, 1155]`, its first entry does not
divide `N[0] = 15` (and `gcd(15, 77) = 1` would require `R[0] = 1`), and the
printed compromised count is 2. -/
theorem main_final_gcd_stage_skipped :
    (main_run [15, 77]).1 = [30, 1155] ∧
    ¬ ((main_run [15, 77]).1.getD 0 0 ∣ 15) ∧
    (main_run [15, 77]).2 = 2 := by
  have hR : remainders_squares (store_after_pt [15, 77]) (product_tree_levels [15, 77])
      = [30, 1155] := by
    rw [remainders_squares_store [15, 77] (by simp)]
    decide
  have hm : main_run [15, 77] = ([30, 1155], 2) := by
    rw [main_run, product_tree_input_after_of_lt [15, 77] (by simp), final_gcds_nil, hR]
    rfl
  exact ⟨by rw [hm], by rw [hm]; decide, by rw [hm]⟩

/-- C2.  Scenario S1 on `N = [15, 77]`: the remainder stage does produce
`R = [30, 1155]`, but the final stage leaves `R` unchanged (its loop runs over
the emptied `input_moduli`), so the final `R` is not `[1, 1]` and the printed
compromised count is 2, not 0. -/
theorem scenario_s1_diverges :
    remainders_squares (store_after_pt [15, 77]) (product_tree_levels [15, 77])
      = [30, 1155] ∧
    (main_run [15, 77]).1 ≠ [1, 1] ∧
    (main_run [15, 77]).2 ≠ 0 := by
  have hR : remainders_squares (store_after_pt [15, 77]) (product_tree_levels [15, 77])
      = [30, 1155] := by
    rw [remainders_squares_store [15, 77] (by simp)]
    decide
  have hm : main_run [15, 77] = ([30, 1155], 2) := by
    rw [main_run, product_tree_input_after_of_lt [15, 77] (by simp), final_gcds_nil, hR]
    rfl
  exact ⟨hR, by rw [hm]; decide, by rw [hm]; decide⟩

end BatchGCD
